/-
Verification of the temporal feature engineering engine, schema coercion,
dataset splitter, evaluation metrics and model promotion gate of an MLOps
CTR-prediction pipeline.

The Lean definitions below are a shallow embedding of the Python source:
  * src/mlops/model/preprocess.py   (feature engineering, schema, split)
  * src/mlops/evaluation/metrics.py and comparison.py (metrics, promotion)
  * src/feature_extraction.py       (online feature-store projection)
  * src/predictor.py                (serving-time schema coercion)
Timestamps are modelled as integer seconds; pandas timedelta `.dt.days`
is floor division by 86400.  Exact rationals stand in for Python floats,
and fallible operations return Option/Except.
-/
import Mathlib

namespace MLOpsPractice

/-- Seconds per day: pandas `Timedelta.days` floor-divides by this. -/
def SECONDS_PER_DAY : Int := 86400

/-- An impression-log row (src data model): unique id, user id and event
timestamp (`logged_at`, integer seconds).  The remaining attribute columns
(app code, os version, connectivity, label) ride along with the row as a
whole in every join of `preprocess.py` and never influence join keys or
filters, so the embedding keeps the three join-relevant fields plus the
label. -/
structure Impression where
  impression_id : Nat
  user_id : Nat
  logged_at : Int
  is_click : Bool
deriving DecidableEq, Repr

/-- A view-log row: user id, event timestamp, viewed item and device type
(categorical attributes encoded as naturals). -/
structure View where
  user_id : Nat
  logged_at : Int
  item_id : Nat
  device_type : Nat
deriving DecidableEq, Repr

/-- An item-master row: item id plus its static attributes. -/
structure Item where
  item_id : Nat
  item_price : Int
  category_1 : Nat
  category_2 : Nat
  category_3 : Nat
  product_type : Nat
deriving DecidableEq, Repr

/-- pandas `left.merge(right, how="left")`: every left row is kept in
order; a left row with no match yields a single row with missing right
columns (`none`); a left row with several matches is replicated once per
matching right row, in right order. -/
def leftMerge {α β : Type} (left : List α) (right : List β)
    (keyMatch : α → β → Bool) : List (α × Option β) :=
  left.flatMap (fun a =>
    match right.filter (fun b => keyMatch a b) with
    | [] => [(a, none)]
    | bs => bs.map (fun b => (a, some b)))

/-- pandas timedelta `.days` of `t1 - t2`: floor division of the
difference in seconds by 86400 (floors toward negative infinity). -/
def daysBetween (t1 t2 : Int) : Int :=
  (t1 - t2).fdiv SECONDS_PER_DAY

/-- The sorted list of distinct group keys produced by a pandas
`groupby(key)` (groups are emitted in ascending key order). -/
def groupKeys {α : Type} (rows : List α) (key : α → Nat) : List Nat :=
  List.insertionSort (· ≤ ·) (rows.map key).dedup

/-- `_get_impression_history_feature` (preprocess.py lines 104-132):
self-merge the impression log on `user_id`, keep pairs whose previous
impression is strictly earlier and whose floored day difference is at
most `lookback_days`, then count pairs per `impression_id` (groupby
emits one row per key, keys ascending).  Rows of the self left-merge
without a match carry missing timestamps and are dropped by the strict
`query` comparison, exactly as NaN comparisons are false in pandas. -/
def histFilteredPairs (log : List Impression) (lookback_days : Int) :
    List (Impression × Impression) :=
  (leftMerge log log (fun a b => a.user_id == b.user_id)).filterMap
    (fun p =>
      match p.2 with
      | none => none
      | some b =>
        if b.logged_at < p.1.logged_at ∧
            daysBetween p.1.logged_at b.logged_at ≤ lookback_days then
          some (p.1, b)
        else none)

/-- The impression-history feature table: one `(impression_id,
previous_impression_count)` row per impression id having at least one
qualifying previous impression. -/
def get_impression_history_feature (log : List Impression)
    (lookback_days : Int) : List (Nat × Nat) :=
  let filtered := histFilteredPairs log lookback_days
  (groupKeys filtered (fun p => p.1.impression_id)).map
    (fun k => (k, filtered.countP (fun p => p.1.impression_id == k)))

/-- The `previous_impression_count` value attached to an impression by
the left merge of the history feature onto the impression log: `none`
models the NaN a left-merge leaves when the impression id is absent from
the feature table. -/
def previous_impression_count (log : List Impression)
    (lookback_days : Int) (iid : Nat) : Option Nat :=
  ((get_impression_history_feature log lookback_days).find?
    (fun r => r.1 == iid)).map (fun r => r.2)

/-- pandas `drop_duplicates(subset=["user_id", "logged_at"],
keep="last")`: remove every view having a later duplicate of the same
(user id, timestamp) pair, keeping the kept rows in input order. -/
def drop_duplicates_keep_last : List View → List View
  | [] => []
  | x :: xs =>
    if xs.any (fun y => y.user_id == x.user_id && y.logged_at == x.logged_at)
    then drop_duplicates_keep_last xs
    else x :: drop_duplicates_keep_last xs

/-- The aggregate row of the view-history feature: count of qualifying
views, and the item id and device type of the last qualifying view. -/
structure ViewAgg where
  previous_view_count : Nat
  item_id : Nat
  device_type : Nat
deriving DecidableEq, Repr

/-- The filtered merge of `_get_view_history_feature` (preprocess.py
lines 137-177): impressions left-merged with the de-duplicated view log
on `user_id`, keeping pairs whose view is strictly earlier and whose
floored day difference is at most `lookback_days` (unmatched left rows
again fall to the strict NaN comparison). -/
def viewFilteredPairs (log : List Impression) (views : List View)
    (lookback_days : Int) : List (Impression × View) :=
  (leftMerge log (drop_duplicates_keep_last views)
      (fun a b => a.user_id == b.user_id)).filterMap
    (fun p =>
      match p.2 with
      | none => none
      | some b =>
        if b.logged_at < p.1.logged_at ∧
            daysBetween p.1.logged_at b.logged_at ≤ lookback_days then
          some (p.1, b)
        else none)

/-- The view-history feature table: per impression id with at least one
qualifying view, the count of views and the `last` aggregates of the
group (groups in merged-frame order, keys ascending). -/
def get_view_history_feature (log : List Impression) (views : List View)
    (lookback_days : Int) : List (Nat × ViewAgg) :=
  let filtered := viewFilteredPairs log views lookback_days
  (groupKeys filtered (fun p => p.1.impression_id)).filterMap
    (fun k =>
      let g := filtered.filter (fun p => p.1.impression_id == k)
      g.getLast?.map (fun q => (k, ⟨g.length, q.2.item_id, q.2.device_type⟩)))

/-- Day of month of a day count since the Unix epoch (proleptic Gregorian
calendar, the standard civil-from-days computation). -/
def civilDayOfMonth (z : Int) : Int :=
  let z' := z + 719468
  let era := z'.fdiv 146097
  let doe := z' - era * 146097
  let yoe := (doe - doe.fdiv 1460 + doe.fdiv 36524 - doe.fdiv 146096).fdiv 365
  let doy := doe - (365 * yoe + yoe.fdiv 4 - yoe.fdiv 100)
  let mp := (5 * doy + 2).fdiv 153
  doy - (153 * mp + 2).fdiv 5 + 1

/-- The impression-time features of `_get_impression_time_feature`:
hour of day, day of month and weekday (Monday = 0; the epoch day was a
Thursday, hence the offset 3) of the impression timestamp. -/
structure TimeFeature where
  impression_hour : Int
  impression_day : Int
  impression_weekday : Int
deriving DecidableEq, Repr

/-- Decompose a timestamp in seconds into the three time features. -/
def impressionTimeOf (t : Int) : TimeFeature :=
  ⟨(t.fdiv 3600).emod 24,
   civilDayOfMonth (t.fdiv 86400),
   (t.fdiv 86400 + 3).emod 7⟩

/-- `_get_impression_time_feature` (preprocess.py lines 182-193): one
feature row per impression row, keyed by impression id. -/
def get_impression_time_feature (log : List Impression) :
    List (Nat × TimeFeature) :=
  log.map (fun a => (a.impression_id, impressionTimeOf a.logged_at))

/-- The merge chain shared by `apply_preprocess` and
`get_impression_feature`: left-merge the impression-history feature on
impression id, then the view-history feature on impression id, then the
item master on the item id column that the view-history merge just
produced (missing item id matches nothing, as NaN does in pandas).  The
left rows are abstracted by the accessor `imp` so that the offline path
can carry its extra impression-time column along. -/
def featureJoin {α : Type} (imp : α → Impression) (left : List α)
    (hist : List (Nat × Nat)) (viewfeat : List (Nat × ViewAgg))
    (items : List Item) :
    List (((α × Option (Nat × Nat)) × Option (Nat × ViewAgg)) × Option Item) :=
  leftMerge
    (leftMerge
      (leftMerge left hist (fun a r => (imp a).impression_id == r.1))
      viewfeat (fun p r => (imp p.1).impression_id == r.1))
    items (fun p it =>
      match p.2 with
      | some v => v.2.item_id == it.item_id
      | none => false)

/-- `get_impression_feature` (preprocess.py lines 41-64): the feature
computation of the feature-store write path — history feature, view
feature and item attributes merged onto the raw impression log. -/
def get_impression_feature (log : List Impression) (views : List View)
    (items : List Item) (lookback_days : Int) :
    List (((Impression × Option (Nat × Nat)) × Option (Nat × ViewAgg)) ×
      Option Item) :=
  featureJoin (fun a => a) log
    (get_impression_history_feature log lookback_days)
    (get_view_history_feature log views lookback_days) items

/-- `apply_preprocess` (preprocess.py lines 15-36): the offline feature
computation — identical to `get_impression_feature` except that the
impression-time feature is merged on first. -/
def apply_preprocess (log : List Impression) (views : List View)
    (items : List Item) (lookback_days : Int) :
    List ((((Impression × Option (Nat × TimeFeature)) × Option (Nat × Nat)) ×
      Option (Nat × ViewAgg)) × Option Item) :=
  featureJoin Prod.fst
    (leftMerge log (get_impression_time_feature log)
      (fun a r => a.impression_id == r.1))
    (get_impression_history_feature log lookback_days)
    (get_view_history_feature log views lookback_days) items

/-- pandas `drop_duplicates(subset, keep="first")`, with the set of
already-seen keys made explicit: keep a row exactly when its key has not
occurred before, preserving order. -/
def dropDupKeepFirstAux {α : Type} (key : α → Nat) (seen : List Nat) :
    List α → List α
  | [] => []
  | x :: xs =>
    if key x ∈ seen then dropDupKeepFirstAux key seen xs
    else x :: dropDupKeepFirstAux key (key x :: seen) xs

/-- pandas `drop_duplicates(subset, keep="first")`: keep the first row
bearing each key, in order; every later row with an already-seen key is
removed. -/
def dropDupKeepFirst {α : Type} (key : α → Nat) (l : List α) : List α :=
  dropDupKeepFirstAux key [] l

/-- The online feature-store projection (feature_extraction.py lines
143-147): sort the feature table by `logged_at` descending, then keep
the first (hence latest) row per user id.  The sort is modelled by a
deterministic comparison sort; the source's pandas `sort_values` is
likewise a deterministic procedure.  The projection is generic in the
row type: only the user-id and timestamp columns drive it. -/
def online_projection {α : Type} (user_id : α → Nat) (logged_at : α → Int)
    (df : List α) : List α :=
  dropDupKeepFirst user_id
    (List.insertionSort (fun a b => logged_at b ≤ logged_at a) df)

/-- The dtypes the model schemas declare ("int", "str"; the "category"
dtype of the LightGBM config behaves as a plain relabelling cast and is
modelled like "str"). -/
inductive Dtype where
  | int
  | str
deriving DecidableEq, Repr

/-- One cell of a dataframe column: an integer, a string, or missing
(pandas NaN). -/
inductive Val where
  | vInt (n : Int)
  | vStr (s : String)
  | vNull
deriving DecidableEq, Repr

/-- pandas `fillna(v)` on one cell: replace a missing value, keep the
rest. -/
def fillNa (nv : Val) : Val → Val
  | .vNull => nv
  | .vInt n => .vInt n
  | .vStr s => .vStr s

/-- pandas `astype(dtype)` on one cell: casting a missing value to int
raises (`none`), casting anything to str renders it, and a string cast
to int must parse. -/
def castVal : Dtype → Val → Option Val
  | .int, .vInt n => some (.vInt n)
  | .int, .vStr s => s.toInt?.map Val.vInt
  | .int, .vNull => none
  | .str, .vInt n => some (.vStr (toString n))
  | .str, .vStr s => some (.vStr s)
  | .str, .vNull => some (.vStr "nan")

/-- One feature schema entry (mlops/model/schema.py): column name,
declared dtype and missing-value default. -/
structure Schema where
  name : String
  dtype : Dtype
  null_value : Val
deriving DecidableEq, Repr

/-- A dataframe as the column-wise schema operations see it: the ordered
list of (column name, column cells). -/
abbrev Table := List (String × List Val)

/-- `df[name]`: the first column bearing the name, if any. -/
def getColumn (df : Table) (name : String) : Option (List Val) :=
  (df.find? (fun p => p.1 == name)).map (fun p => p.2)

/-- `df[name] = c`: replace the named column in place, or append a new
column at the end. -/
def setColumn (df : Table) (name : String) (c : List Val) : Table :=
  if df.any (fun p => p.1 == name) then
    df.map (fun p => if p.1 == name then (p.1, c) else p)
  else df ++ [(name, c)]

/-- One iteration of `apply_schema` (preprocess.py lines 74-76): a
KeyError if the declared column is absent (modelled as `none`), else
`fillna(null_value)` then `astype(dtype)` on that column, in place. -/
def applySchemaStep (df : Table) (s : Schema) : Option Table :=
  match getColumn df s.name with
  | none => none
  | some c =>
    ((c.map (fillNa s.null_value)).mapM (castVal s.dtype)).map
      (setColumn df s.name)

/-- `apply_schema` (preprocess.py lines 69-77): fold the per-schema
fill-and-cast over the declared schema list.  Extra columns and column
order are untouched; nothing is materialized or selected. -/
def apply_schema (df : Table) (schemas : List Schema) : Option Table :=
  schemas.foldlM applySchemaStep df

/-- One iteration of the serving-time coercion (predictor.py lines
101-105): first materialize an absent declared column as all-missing,
then fill and cast exactly as `apply_schema` does. -/
def predictorStep (nrows : Nat) (df : Table) (s : Schema) : Option Table :=
  applySchemaStep
    (if df.any (fun p => p.1 == s.name) then df
     else df ++ [(s.name, List.replicate nrows Val.vNull)]) s

/-- The serving-time schema coercion of `predictor.predict`
(predictor.py lines 99-107): per-schema materialize/fill/cast, then
select exactly the declared columns in the declared order. -/
def predictor_schema_coercion (nrows : Nat) (df : Table)
    (schemas : List Schema) : Option Table :=
  (schemas.foldlM (predictorStep nrows) df).bind (fun d =>
    schemas.mapM (fun s => (getColumn d s.name).map (fun c => (s.name, c))))

/-- sklearn `train_test_split` with a float `test_size` and
`shuffle=False` (model_selection `_validate_shuffle_split`): the ratio
must lie strictly in (0, 1); the test length is the ceiling of
ratio * n and the remaining prefix is the train split, which must not
end up empty; without shuffling the split is positional — first rows to
train, last rows to test. -/
def train_test_split {α : Type} (l : List α) (test_size : ℚ) :
    Except String (List α × List α) :=
  if test_size ≤ 0 ∨ 1 ≤ test_size then
    Except.error "test_size should be a float in the (0, 1) range"
  else
    let n_train := l.length - Nat.ceil (test_size * l.length)
    if n_train = 0 then
      Except.error "the resulting train set will be empty"
    else
      Except.ok (l.take n_train, l.drop n_train)

/-- `apply_train_test_split` (preprocess.py lines 82-99): sort by the
event timestamp ascending, split off the test fraction of the whole,
then split the remainder into train and validation with the validation
fraction. -/
def apply_train_test_split {α : Type} (logged_at : α → Int) (df : List α)
    (test_size valid_size : ℚ) :
    Except String (List α × List α × List α) :=
  let sorted := List.insertionSort (fun a b => logged_at a ≤ logged_at b) df
  (train_test_split sorted test_size).bind (fun p =>
    (train_test_split p.1 valid_size).map (fun q => (q.1, q.2, p.2)))

deriving instance DecidableEq for Except

/-- `calibration_score` (metrics.py lines 27-28): the sum of predicted
probabilities divided by the count of true positives.  A zero positive
count is a division by zero, which produces no score (`none`). -/
def calibration_score (y_true y_pred : List ℚ) : Option ℚ :=
  if y_true.sum = 0 then none else some (y_pred.sum / y_true.sum)

/-- sklearn `log_loss`: the mean negative log-likelihood of the true
labels under the predicted probabilities (the epsilon clipping of
degenerate predictions, a floating-point guard, is not modelled). -/
noncomputable def log_loss (y_true y_pred : List ℚ) : ℝ :=
  -((y_true.zip y_pred).map (fun p =>
      (p.1 : ℝ) * Real.log (p.2 : ℝ) +
        (1 - (p.1 : ℝ)) * Real.log (1 - (p.2 : ℝ)))).sum /
    (y_true.length : ℝ)

/-- `_is_better_logloss` (comparison.py lines 28-32): the challenger's
log-loss is at most the baseline's. -/
def is_better_logloss (y_pred y_baseline y_true : List ℚ) : Prop :=
  log_loss y_true y_pred ≤ log_loss y_true y_baseline

/-- `_is_better_calibration` (comparison.py lines 37-42): both
calibration scores exist and the challenger's is at least as close to
1. -/
def is_better_calibration (y_pred y_baseline y_true : List ℚ) : Prop :=
  ∃ c cb, calibration_score y_true y_pred = some c ∧
    calibration_score y_true y_baseline = some cb ∧
    |c - 1| ≤ |cb - 1|

/-- `is_model_better_than_baseline` (comparison.py lines 15-23): the
conjunction of the log-loss and calibration conditions. -/
def is_model_better_than_baseline (y_pred y_baseline y_true : List ℚ) :
    Prop :=
  is_better_logloss y_pred y_baseline y_true ∧
  is_better_calibration y_pred y_baseline y_true

/-- The registration decision of `train_with_feature_store.main`
(lines 138-158): with no baseline version in the registry the new model
registers unconditionally; otherwise it registers exactly when the
promotion gate holds against the baseline's predictions. -/
def is_update_model_version (latest_model_version : Option String)
    (y_pred y_baseline y_true : List ℚ) : Prop :=
  match latest_model_version with
  | none => True
  | some _ => is_model_better_than_baseline y_pred y_baseline y_true

/-- A two-impression log for user 5: one event at time 0 and one 7 days
and 12 hours later (648000 = 7 * 86400 + 43200 seconds). -/
def c1log : List Impression :=
  [⟨1, 5, 0, false⟩, ⟨2, 5, 7 * 86400 + 43200, true⟩]

/-- A `filterMap` whose function is a guarded `some` is a filter followed
by a map. -/
theorem filterMap_guard {α β : Type} (c : α → Bool) (f : α → β) (l : List α) :
    l.filterMap (fun b => if c b then some (f b) else none) =
      (l.filter c).map f := by
  induction l with
  | nil => rfl
  | cons x xs ih =>
    by_cases hx : c x
    · simp [List.filterMap_cons, List.filter_cons, hx, ih]
    · simp [List.filterMap_cons, List.filter_cons, hx, ih]

/-- The filtered self-merge of the impression log, written as one pass:
for each anchor impression, the qualifying previous impressions in log
order. -/
theorem histFilteredPairs_eq (log : List Impression) (L : Int) :
    histFilteredPairs log L = log.flatMap (fun a =>
      ((log.filter (fun b => a.user_id == b.user_id)).filter (fun b =>
          decide (b.logged_at < a.logged_at ∧
            daysBetween a.logged_at b.logged_at ≤ L))).map
        (fun b => (a, b))) := by
  unfold histFilteredPairs leftMerge
  rw [List.filterMap_flatMap]
  congr 1
  funext a
  cases h : log.filter (fun b => a.user_id == b.user_id) with
  | nil => simp
  | cons x xs =>
    rw [List.filterMap_map]
    have : ((fun (p : Impression × Option Impression) =>
        match p.2 with
        | none => none
        | some b =>
          if b.logged_at < p.1.logged_at ∧
              daysBetween p.1.logged_at b.logged_at ≤ L then
            some (p.1, b)
          else none) ∘ (fun b => (a, some b))) =
        fun b => if (decide (b.logged_at < a.logged_at ∧
            daysBetween a.logged_at b.logged_at ≤ L) : Bool) then
          some (a, b) else none := by
      funext b
      by_cases hb : b.logged_at < a.logged_at ∧
          daysBetween a.logged_at b.logged_at ≤ L
      · simp [hb]
      · simp [hb]
    rw [this, filterMap_guard]

/-- A group key is emitted by `groupby` exactly when some row carries it. -/
theorem mem_groupKeys {α : Type} (rows : List α) (key : α → Nat) (k : Nat) :
    k ∈ groupKeys rows key ↔ ∃ r ∈ rows, key r = k := by
  unfold groupKeys
  rw [List.mem_insertionSort, List.mem_dedup, List.mem_map]

/-- `find?` with an equality test returns the sought element iff present. -/
theorem find?_beq_nat (l : List Nat) (x : Nat) :
    l.find? (fun k => k == x) = if x ∈ l then some x else none := by
  induction l with
  | nil => simp
  | cons y t ih =>
    by_cases hx : y = x
    · subst hx
      simp [List.find?]
    · have : (y == x) = false := by simp [hx]
      simp [List.find?, this, ih, List.mem_cons, Ne.symm hx]

/-- Summing a function that vanishes away from a single element of a
duplicate-free list gives that element's value. -/
theorem sum_map_eq_single {α : Type} (l : List α) (g : α → Nat) (i : α)
    (hl : l.Nodup) (hi : i ∈ l) (h0 : ∀ a ∈ l, a ≠ i → g a = 0) :
    (l.map g).sum = g i := by
  induction l with
  | nil => cases hi
  | cons x xs ih =>
    rw [List.nodup_cons] at hl
    rcases List.mem_cons.mp hi with hx | hx
    · subst hx
      have hz : (xs.map g).sum = 0 := by
        apply List.sum_eq_zero
        intro n hn
        rcases List.mem_map.mp hn with ⟨a, ha, rfl⟩
        exact h0 a (List.mem_cons_of_mem _ ha) (fun hax => hl.1 (hax ▸ ha))
      simp [hz]
    · have hx0 : g x = 0 :=
        h0 x (List.mem_cons_self _ _) (fun hxi => hl.1 (hxi ▸ hx))
      have := ih hl.2 hx (fun a ha => h0 a (List.mem_cons_of_mem _ ha))
      simp [hx0, this]

/-- For a positive time difference, the floored pandas day count is at
most `L` exactly when the raw difference is under `L + 1` whole days. -/
theorem daysBetween_le_iff (t1 t2 L : Int) :
    daysBetween t1 t2 ≤ L ↔ t1 - t2 < (L + 1) * SECONDS_PER_DAY := by
  unfold daysBetween SECONDS_PER_DAY
  rw [Int.fdiv_eq_ediv _ (by norm_num)]
  rw [← Int.lt_add_one_iff, Int.ediv_lt_iff_lt_mul (by norm_num)]

/-- The number of filtered self-merge pairs anchored at a given
impression equals the count of its qualifying previous impressions. -/
theorem countP_histFilteredPairs (log : List Impression) (L : Int)
    (i : Impression) (hnodup : (log.map Impression.impression_id).Nodup)
    (hi : i ∈ log) :
    (histFilteredPairs log L).countP
        (fun p => p.1.impression_id == i.impression_id) =
      log.countP (fun b => i.user_id == b.user_id &&
        decide (b.logged_at < i.logged_at ∧
          daysBetween i.logged_at b.logged_at ≤ L)) := by
  rw [histFilteredPairs_eq, List.countP_flatMap]
  have hinj : ∀ a ∈ log, ∀ b ∈ log,
      a.impression_id = b.impression_id → a = b :=
    List.inj_on_of_nodup_map hnodup
  apply sum_map_eq_single log _ i (hnodup.of_map) hi ?_ |>.trans ?_
  · intro a ha hne
    simp only [Function.comp]
    rw [List.countP_map]
    have : ((fun (p : Impression × Impression) =>
        p.1.impression_id == i.impression_id) ∘ fun b => (a, b)) =
        fun _ => (a.impression_id == i.impression_id) := rfl
    rw [this]
    have hne' : (a.impression_id == i.impression_id) = false := by
      simp only [beq_eq_false_iff_ne, ne_eq]
      exact fun hh => hne (hinj a ha i hi hh)
    simp [hne']
  · simp only [Function.comp]
    rw [List.countP_map]
    have : ((fun (p : Impression × Impression) =>
        p.1.impression_id == i.impression_id) ∘ fun b => (i, b)) =
        fun _ => true := by
      funext b
      simp
    rw [this, List.countP_true, List.filter_filter,
      ← List.countP_eq_length_filter]
    congr 1
    funext b
    rw [Bool.and_comm]

/-- The code predicate (floored day difference at most `L`) agrees
pointwise with the real-time window "strictly less than `L + 1` days
old". -/
theorem window_pred_eq (i b : Impression) (L : Int) :
    (i.user_id == b.user_id &&
      decide (b.logged_at < i.logged_at ∧
        daysBetween i.logged_at b.logged_at ≤ L)) =
    (i.user_id == b.user_id && decide (b.logged_at < i.logged_at) &&
      decide (i.logged_at - b.logged_at < (L + 1) * SECONDS_PER_DAY)) := by
  by_cases hlt : b.logged_at < i.logged_at
  · have := daysBetween_le_iff i.logged_at b.logged_at L
    by_cases hd : daysBetween i.logged_at b.logged_at ≤ L
    · simp [hlt, hd, this.mp hd]
    · have hnc : ¬ i.logged_at - b.logged_at < (L + 1) * SECONDS_PER_DAY :=
        fun hc => hd (this.mpr hc)
      simp [hlt, hd, not_lt.mp hnc]
  · simp [hlt]

/-- C1 (amended): with duplicate-free impression ids, the
`previous_impression_count` attached to an impression equals the number
of same-user impressions strictly earlier than it and strictly less than
`lookback_days + 1` days old (`none` standing for a zero count, since
`groupby` emits no row for an impression without qualifying history). -/
theorem previous_impression_count_window (log : List Impression) (L : Int)
    (i : Impression) (hnodup : (log.map Impression.impression_id).Nodup)
    (hi : i ∈ log) :
    previous_impression_count log L i.impression_id =
      (if log.countP (fun b => i.user_id == b.user_id &&
            decide (b.logged_at < i.logged_at) &&
            decide (i.logged_at - b.logged_at <
              (L + 1) * SECONDS_PER_DAY)) = 0
        then none
        else some (log.countP (fun b => i.user_id == b.user_id &&
            decide (b.logged_at < i.logged_at) &&
            decide (i.logged_at - b.logged_at <
              (L + 1) * SECONDS_PER_DAY)))) := by
  have hc : (histFilteredPairs log L).countP
      (fun p => p.1.impression_id == i.impression_id) =
      log.countP (fun b => i.user_id == b.user_id &&
        decide (b.logged_at < i.logged_at) &&
        decide (i.logged_at - b.logged_at <
          (L + 1) * SECONDS_PER_DAY)) := by
    rw [countP_histFilteredPairs log L i hnodup hi]
    congr 1
    funext b
    exact window_pred_eq i b L
  rw [previous_impression_count]
  simp only [get_impression_history_feature]
  rw [List.find?_map]
  have hcomp : ((fun (r : Nat × Nat) => r.1 == i.impression_id) ∘
      (fun k => (k, (histFilteredPairs log L).countP
        (fun p => p.1.impression_id == k)))) =
      fun k => k == i.impression_id := rfl
  rw [hcomp, find?_beq_nat]
  by_cases hm : i.impression_id ∈
      groupKeys (histFilteredPairs log L) (fun p => p.1.impression_id)
  · have hpos : 0 < (histFilteredPairs log L).countP
        (fun p => p.1.impression_id == i.impression_id) := by
      rw [List.countP_pos_iff]
      rcases (mem_groupKeys _ _ _).mp hm with ⟨r, hr, hk⟩
      exact ⟨r, hr, by simp [hk]⟩
    rw [hc] at hpos
    simp [hm, hc, Nat.pos_iff_ne_zero.mp hpos]
  · have hz : (histFilteredPairs log L).countP
        (fun p => p.1.impression_id == i.impression_id) = 0 := by
      by_contra hnz
      apply hm
      rcases List.countP_pos_iff.mp (Nat.pos_of_ne_zero hnz) with ⟨r, hr, hb⟩
      exact (mem_groupKeys _ _ _).mpr ⟨r, hr, by simpa using hb⟩
    rw [hc] at hz
    simp [hm, hz]

/-- C1 as stated is false on the code: in `c1log` the impression at
time 648000 has `previous_impression_count = 1`, yet no same-user event
is both strictly earlier and at most `lookback_days = 7` days old — the
only earlier event is 7 days and 12 hours old, which the claim says must
never be counted. -/
theorem previous_impression_count_claim_false :
    previous_impression_count c1log 7 2 = some 1 ∧
    c1log.countP (fun b => (5 : Nat) == b.user_id &&
      decide (b.logged_at < (648000 : Int)) &&
      decide ((648000 : Int) - b.logged_at ≤ 7 * SECONDS_PER_DAY)) = 0 := by
  decide

/-- Witness: the amended window theorem evaluated on `c1log` at the
impression with id 2. -/
theorem previous_impression_count_window_witness :
    previous_impression_count c1log 7 2 =
      (if c1log.countP (fun b => (5 : Nat) == b.user_id &&
            decide (b.logged_at < (648000 : Int)) &&
            decide ((648000 : Int) - b.logged_at <
              ((7 : Int) + 1) * SECONDS_PER_DAY)) = 0
        then none
        else some (c1log.countP (fun b => (5 : Nat) == b.user_id &&
            decide (b.logged_at < (648000 : Int)) &&
            decide ((648000 : Int) - b.logged_at <
              ((7 : Int) + 1) * SECONDS_PER_DAY)))) :=
  previous_impression_count_window c1log 7 ⟨2, 5, 648000, true⟩
    (by decide) (by decide)

/-- A `flatMap` producing singletons is a `map`. -/
theorem flatMap_eq_map {α β : Type} (l : List α) (f : α → List β)
    (g : α → β) (h : ∀ a ∈ l, f a = [g a]) : l.flatMap f = l.map g := by
  induction l with
  | nil => rfl
  | cons x xs ih =>
    rw [List.flatMap_cons, h x (List.mem_cons_self _ _),
      ih (fun a ha => h a (List.mem_cons_of_mem _ ha)), List.map_cons,
      List.singleton_append]

/-- Filtering a list for the key of one of its members returns exactly
that member when keys are duplicate-free. -/
theorem filter_beq_singleton {α β : Type} [DecidableEq β] (l : List α)
    (f : α → β) (hn : (l.map f).Nodup) (a : α) (ha : a ∈ l) :
    l.filter (fun b => f a == f b) = [a] := by
  induction l with
  | nil => cases ha
  | cons x xs ih =>
    rw [List.map_cons, List.nodup_cons] at hn
    rcases List.mem_cons.mp ha with rfl | hmem
    · have hz : xs.filter (fun b => f a == f b) = [] := by
        rw [List.filter_eq_nil_iff]
        intro b hb
        simp only [beq_iff_eq]
        exact fun hfb => hn.1 (hfb ▸ List.mem_map_of_mem f hb)
      rw [List.filter_cons]
      simp [hz]
    · have hne : (f a == f x) = false := by
        simp only [beq_eq_false_iff_ne, ne_eq]
        intro hfa
        exact hn.1 (hfa ▸ List.mem_map_of_mem f hmem)
      rw [List.filter_cons]
      simp [hne, ih hn.2 hmem]

/-- A left merge in which every left row has exactly one matching right
row attaches that row, one to one. -/
theorem leftMerge_unique {α β : Type} (l : List α) (r : List β)
    (km : α → β → Bool) (u : α → β)
    (h : ∀ a ∈ l, r.filter (fun b => km a b) = [u a]) :
    leftMerge l r km = l.map (fun a => (a, some (u a))) := by
  unfold leftMerge
  apply flatMap_eq_map
  intro a ha
  rw [h a ha]
  rfl

/-- With duplicate-free impression ids, merging the impression-time
feature back onto the log attaches exactly each row's own time feature. -/
theorem leftMerge_time_feature (log : List Impression)
    (hn : (log.map Impression.impression_id).Nodup) :
    leftMerge log (get_impression_time_feature log)
      (fun a r => a.impression_id == r.1) =
    log.map (fun a =>
      (a, some (a.impression_id, impressionTimeOf a.logged_at))) := by
  apply leftMerge_unique log _ _
    (fun a => (a.impression_id, impressionTimeOf a.logged_at))
  intro a ha
  show (get_impression_time_feature log).filter
      (fun r => a.impression_id == r.1) =
    [(a.impression_id, impressionTimeOf a.logged_at)]
  unfold get_impression_time_feature
  rw [List.filter_map]
  have hcomp : ((fun (r : Nat × TimeFeature) => a.impression_id == r.1) ∘
      (fun (b : Impression) =>
        (b.impression_id, impressionTimeOf b.logged_at))) =
      fun b => a.impression_id == b.impression_id := rfl
  rw [hcomp, filter_beq_singleton log Impression.impression_id hn a ha]
  rfl

/-- A left merge whose left rows were just mapped is the merge of the
originals, mapped. -/
theorem leftMerge_map {α' α β : Type} (g : α' → α) (l : List α')
    (r : List β) (km : α → β → Bool) :
    leftMerge (l.map g) r km =
      (leftMerge l r (fun a b => km (g a) b)).map (fun p => (g p.1, p.2)) := by
  unfold leftMerge
  rw [List.flatMap_map, List.map_flatMap]
  congr 1
  funext a
  cases h : r.filter (fun b => km (g a) b) with
  | nil => simp [h]
  | cons x xs =>
    simp only [h, List.map_map]
    rfl

/-- Carrying an extra column through the shared merge chain only maps
each result row; join keys and values are unchanged. -/
theorem featureJoin_fst_map {γ : Type} (tf : Impression → γ)
    (l : List Impression) (hist : List (Nat × Nat))
    (viewfeat : List (Nat × ViewAgg)) (items : List Item) :
    featureJoin Prod.fst (l.map (fun a => (a, tf a))) hist viewfeat items =
      (featureJoin (fun a => a) l hist viewfeat items).map
        (fun p => ((((p.1.1.1, tf p.1.1.1), p.1.1.2), p.1.2), p.2)) := by
  unfold featureJoin
  rw [leftMerge_map, leftMerge_map, leftMerge_map]

/-- C3 (confirmed): with duplicate-free impression ids, the offline
computation `apply_preprocess` and the feature-store computation
`get_impression_feature` agree on every shared column — dropping the
impression-time column from the offline output yields the feature-store
output row for row. -/
theorem apply_preprocess_shared_columns (log : List Impression)
    (views : List View) (items : List Item) (lookback_days : Int)
    (hn : (log.map Impression.impression_id).Nodup) :
    (apply_preprocess log views items lookback_days).map
        (fun r => (((r.1.1.1.1, r.1.1.2), r.1.2), r.2)) =
      get_impression_feature log views items lookback_days := by
  unfold apply_preprocess get_impression_feature
  rw [leftMerge_time_feature log hn,
    featureJoin_fst_map
      (fun a => some (a.impression_id, impressionTimeOf a.logged_at)) log,
    List.map_map]
  exact List.map_id _

/-- Witness: the shared-column equality evaluated on a one-impression
log (user 5 at day 10), one view (day 9, item 42) and one item row. -/
theorem apply_preprocess_shared_columns_witness :
    (([⟨1, 5, 864000, true⟩] : List Impression).map
        Impression.impression_id).Nodup ∧
    (apply_preprocess [⟨1, 5, 864000, true⟩] [⟨5, 777600, 42, 9⟩]
          [⟨42, 500, 1, 2, 3, 4⟩] 7).map
        (fun r => (((r.1.1.1.1, r.1.1.2), r.1.2), r.2)) =
      get_impression_feature [⟨1, 5, 864000, true⟩] [⟨5, 777600, 42, 9⟩]
        [⟨42, 500, 1, 2, 3, 4⟩] 7 :=
  ⟨by decide, apply_preprocess_shared_columns _ _ _ 7 (by decide)⟩

/-- Every kept row comes from the input. -/
theorem dropDupKeepFirstAux_subset {α : Type} (key : α → Nat)
    (seen : List Nat) (l : List α) (b : α)
    (hb : b ∈ dropDupKeepFirstAux key seen l) : b ∈ l := by
  induction l generalizing seen with
  | nil => cases hb
  | cons x xs ih =>
    rw [dropDupKeepFirstAux] at hb
    by_cases hx : key x ∈ seen
    · rw [if_pos hx] at hb
      exact List.mem_cons_of_mem _ (ih seen hb)
    · rw [if_neg hx] at hb
      rcases List.mem_cons.mp hb with rfl | hb'
      · exact List.mem_cons_self _ _
      · exact List.mem_cons_of_mem _ (ih _ hb')

/-- No kept row has a key that was already seen. -/
theorem dropDupKeepFirstAux_not_seen {α : Type} (key : α → Nat)
    (seen : List Nat) (l : List α) (b : α)
    (hb : b ∈ dropDupKeepFirstAux key seen l) : key b ∉ seen := by
  induction l generalizing seen with
  | nil => cases hb
  | cons x xs ih =>
    rw [dropDupKeepFirstAux] at hb
    by_cases hx : key x ∈ seen
    · rw [if_pos hx] at hb
      exact ih seen hb
    · rw [if_neg hx] at hb
      rcases List.mem_cons.mp hb with rfl | hb'
      · exact hx
      · intro hmem
        exact ih _ hb' (List.mem_cons_of_mem _ hmem)

/-- The kept rows carry pairwise distinct keys. -/
theorem dropDupKeepFirstAux_nodup {α : Type} (key : α → Nat)
    (seen : List Nat) (l : List α) :
    ((dropDupKeepFirstAux key seen l).map key).Nodup := by
  induction l generalizing seen with
  | nil => exact List.nodup_nil
  | cons x xs ih =>
    rw [dropDupKeepFirstAux]
    by_cases hx : key x ∈ seen
    · rw [if_pos hx]
      exact ih seen
    · rw [if_neg hx]
      rw [List.map_cons, List.nodup_cons]
      refine ⟨?_, ih _⟩
      intro hmem
      rcases List.mem_map.mp hmem with ⟨b, hb, hkb⟩
      exact dropDupKeepFirstAux_not_seen key _ xs b hb
        (hkb ▸ List.mem_cons_self _ _)

/-- On a descending-sorted list, a kept row has the maximal timestamp
among all input rows with its key. -/
theorem dropDupKeepFirstAux_max {α : Type} (key : α → Nat)
    (logged_at : α → Int) (seen : List Nat) (l : List α)
    (hs : l.Sorted (fun a b => logged_at b ≤ logged_at a)) (b : α)
    (hb : b ∈ dropDupKeepFirstAux key seen l) (r : α) (hr : r ∈ l)
    (hkey : key r = key b) : logged_at r ≤ logged_at b := by
  induction l generalizing seen with
  | nil => cases hb
  | cons x xs ih =>
    rw [dropDupKeepFirstAux] at hb
    by_cases hx : key x ∈ seen
    · rw [if_pos hx] at hb
      rcases List.mem_cons.mp hr with rfl | hr'
      · exact absurd (hkey ▸ hx)
          (dropDupKeepFirstAux_not_seen key seen xs b hb)
      · exact ih seen hs.of_cons hb hr'
    · rw [if_neg hx] at hb
      rcases List.mem_cons.mp hb with rfl | hb'
      · rcases List.mem_cons.mp hr with rfl | hr'
        · exact le_refl _
        · exact List.rel_of_sorted_cons hs r hr'
      · rcases List.mem_cons.mp hr with rfl | hr'
        · exact absurd (hkey ▸ List.mem_cons_self (key r) seen)
            (dropDupKeepFirstAux_not_seen key _ xs b hb')
        · exact ih _ hs.of_cons hb' hr'

/-- Every input key that is not yet seen survives into the output. -/
theorem dropDupKeepFirstAux_covers {α : Type} (key : α → Nat)
    (seen : List Nat) (l : List α) (r : α) (hr : r ∈ l)
    (hseen : key r ∉ seen) :
    ∃ b ∈ dropDupKeepFirstAux key seen l, key b = key r := by
  induction l generalizing seen with
  | nil => cases hr
  | cons x xs ih =>
    rw [dropDupKeepFirstAux]
    by_cases hx : key x ∈ seen
    · rw [if_pos hx]
      rcases List.mem_cons.mp hr with rfl | hr'
      · exact absurd hx hseen
      · exact ih seen hr' hseen
    · rw [if_neg hx]
      rcases List.mem_cons.mp hr with rfl | hr'
      · exact ⟨r, List.mem_cons_self _ _, rfl⟩
      · by_cases hk : key r = key x
        · exact ⟨x, List.mem_cons_self _ _, hk.symm⟩
        · rcases ih (key x :: seen) hr'
              (fun hmem => (List.mem_cons.mp hmem).elim hk hseen) with
            ⟨b, hb, hkb⟩
          exact ⟨b, List.mem_cons_of_mem _ hb, hkb⟩

/-- C4 (confirmed): the online projection keeps at most one row per user
id; every kept row is an original input row (replacement, never a
merge) whose timestamp is maximal among that user's rows; and every user
appearing in the input retains exactly one row. -/
theorem online_projection_latest_per_user {α : Type} (user_id : α → Nat)
    (logged_at : α → Int) (df : List α) :
    ((online_projection user_id logged_at df).map user_id).Nodup ∧
    (∀ r ∈ online_projection user_id logged_at df, r ∈ df ∧
      ∀ s ∈ df, user_id s = user_id r → logged_at s ≤ logged_at r) ∧
    (∀ s ∈ df, ∃ r ∈ online_projection user_id logged_at df,
      user_id r = user_id s) := by
  haveI : IsTotal α (fun a b => logged_at b ≤ logged_at a) :=
    ⟨fun a b => le_total (logged_at b) (logged_at a)⟩
  haveI : IsTrans α (fun a b => logged_at b ≤ logged_at a) :=
    ⟨fun _ _ _ hab hbc => le_trans hbc hab⟩
  have hsorted : (List.insertionSort
      (fun a b => logged_at b ≤ logged_at a) df).Sorted
      (fun a b => logged_at b ≤ logged_at a) :=
    List.sorted_insertionSort _ df
  refine ⟨dropDupKeepFirstAux_nodup _ _ _, ?_, ?_⟩
  · intro r hr
    constructor
    · exact (List.mem_insertionSort _).mp
        (dropDupKeepFirstAux_subset _ _ _ _ hr)
    · intro s hs hk
      exact dropDupKeepFirstAux_max user_id logged_at [] _ hsorted r hr s
        ((List.mem_insertionSort _).mpr hs) hk
  · intro s hs
    exact dropDupKeepFirstAux_covers user_id [] _ s
      ((List.mem_insertionSort _).mpr hs) (List.not_mem_nil _)

/-- Witness: the online projection of three rows for users 7 and 3 keeps
exactly the latest row of each user, and user 7's kept timestamp 20
dominates both input rows of user 7. -/
theorem online_projection_latest_per_user_witness :
    online_projection Prod.fst Prod.snd
        ([(7, 10), (3, 5), (7, 20)] : List (Nat × Int)) =
      [(7, 20), (3, 5)] ∧
    ∀ s ∈ ([(7, 10), (3, 5), (7, 20)] : List (Nat × Int)),
      s.1 = 7 → s.2 ≤ 20 := by
  refine ⟨by decide, ?_⟩
  intro s hs hk
  exact ((online_projection_latest_per_user Prod.fst Prod.snd
      [(7, 10), (3, 5), (7, 20)]).2.1 (7, 20) (by decide)).2 s hs hk

/-- A successful cast never yields a missing value. -/
theorem castVal_ne_null {d : Dtype} {v w : Val}
    (h : castVal d v = some w) : w ≠ Val.vNull := by
  cases d <;> cases v <;> simp [castVal] at h <;> first
    | (subst h; simp)
    | (rcases h with ⟨n, _, hw⟩; subst hw; simp)

/-- Casting is idempotent on successful outputs. -/
theorem castVal_idem {d : Dtype} {v w : Val}
    (h : castVal d v = some w) : castVal d w = some w := by
  cases d <;> cases v <;> simp [castVal] at h ⊢ <;> first
    | (subst h; simp [castVal])
    | (rcases h with ⟨n, _, hw⟩; subst hw; simp [castVal])

/-- Filling leaves non-missing cells alone. -/
theorem fillNa_eq_self {nv v : Val} (h : v ≠ Val.vNull) :
    fillNa nv v = v := by
  cases v <;> simp [fillNa] at h ⊢

/-- A pointwise-successful identity-like `mapM` returns the list. -/
theorem mapM_castVal_self (d : Dtype) (c : List Val)
    (h : ∀ v ∈ c, castVal d v = some v) : c.mapM (castVal d) = some c := by
  induction c with
  | nil => rfl
  | cons v vs ih =>
    rw [List.mapM_cons, h v (List.mem_cons_self _ _),
      ih (fun w hw => h w (List.mem_cons_of_mem _ hw))]
    rfl

/-- In-place column replacement, seen through `find?` on the written
name. -/
theorem find?_map_set (ps : Table) (name : String) (c : List Val) :
    (ps.map (fun p => if p.1 == name then (p.1, c) else p)).find?
        (fun p => p.1 == name) =
      (ps.find? (fun p => p.1 == name)).map (fun p => (p.1, c)) := by
  induction ps with
  | nil => rfl
  | cons p ps ih =>
    rw [List.map_cons]
    by_cases hp : (p.1 == name) = true
    · rw [if_pos hp,
        @List.find?_cons_of_pos _ (fun q => q.1 == name) (p.1, c) _
          (by simpa using hp),
        @List.find?_cons_of_pos _ (fun q => q.1 == name) p ps hp]
      rfl
    · rw [if_neg hp,
        @List.find?_cons_of_neg _ (fun q => q.1 == name) p _ hp,
        @List.find?_cons_of_neg _ (fun q => q.1 == name) p ps hp, ih]

/-- In-place column replacement, seen through `find?` on another name. -/
theorem find?_map_set_other (ps : Table) (name x : String) (c : List Val)
    (hx : x ≠ name) :
    (ps.map (fun p => if p.1 == name then (p.1, c) else p)).find?
        (fun p => p.1 == x) =
      ps.find? (fun p => p.1 == x) := by
  induction ps with
  | nil => rfl
  | cons p ps ih =>
    rw [List.map_cons]
    by_cases hp : (p.1 == x) = true
    · have hpn : ¬ (p.1 == name) = true := by
        have hpx : p.1 = x := by simpa using hp
        simp [hpx, hx]
      rw [if_neg hpn,
        @List.find?_cons_of_pos _ (fun q => q.1 == x) p _ hp,
        @List.find?_cons_of_pos _ (fun q => q.1 == x) p ps hp]
    · have hexp : ¬ ((if (p.1 == name) = true then (p.1, c) else p).1 == x)
          = true := by
        by_cases hpn : (p.1 == name) = true
        · rw [if_pos hpn]
          simpa using hp
        · rw [if_neg hpn]
          exact hp
      rw [@List.find?_cons_of_neg _ (fun q => q.1 == x)
          (if (p.1 == name) = true then (p.1, c) else p) _ hexp,
        @List.find?_cons_of_neg _ (fun q => q.1 == x) p ps hp, ih]

/-- Reading back the column just written. -/
theorem getColumn_setColumn_self (df : Table) (name : String)
    (c : List Val) : getColumn (setColumn df name c) name = some c := by
  unfold setColumn getColumn
  by_cases h : df.any (fun p => p.1 == name)
  · rw [if_pos h, find?_map_set]
    cases hfind : df.find? (fun p => p.1 == name) with
    | none =>
      rw [List.find?_eq_none] at hfind
      rcases List.any_eq_true.mp h with ⟨q, hq, hqn⟩
      exact absurd hqn (hfind q hq)
    | some r =>
      rfl
  · rw [if_neg h, List.find?_append]
    have hno : df.find? (fun p => p.1 == name) = none := by
      rw [List.find?_eq_none]
      intro q hq hqn
      exact h (List.any_eq_true.mpr ⟨q, hq, hqn⟩)
    rw [hno, Option.none_or,
      @List.find?_cons_of_pos _ (fun p => p.1 == name) (name, c) []
        (show ((name, c).1 == name) = true by simp)]
    rfl

/-- Writing one column leaves every other column unchanged. -/
theorem getColumn_setColumn_other (df : Table) (name x : String)
    (c : List Val) (hx : x ≠ name) :
    getColumn (setColumn df name c) x = getColumn df x := by
  unfold setColumn getColumn
  by_cases h : df.any (fun p => p.1 == name)
  · rw [if_pos h, find?_map_set_other df name x c hx]
  · rw [if_neg h, List.find?_append]
    have hone : ([(name, c)] : Table).find? (fun p => p.1 == x) = none := by
      rw [List.find?_eq_none]
      intro q hq hqx
      rw [List.mem_singleton] at hq
      subst hq
      have hnx : name = x := by simpa using hqx
      exact hx hnx.symm
    rw [hone, Option.or_none]

/-- Destructuring a successful `apply_schema` step. -/
theorem applySchemaStep_eq {df t : Table} {s : Schema}
    (h : applySchemaStep df s = some t) :
    ∃ c c', getColumn df s.name = some c ∧
      (c.map (fillNa s.null_value)).mapM (castVal s.dtype) = some c' ∧
      t = setColumn df s.name c' := by
  unfold applySchemaStep at h
  split at h
  · cases h
  · next c heq =>
    rcases Option.map_eq_some'.mp h with ⟨c', hm, ht⟩
    exact ⟨c, c', heq, hm, ht.symm⟩

/-- A present column makes the `any` test succeed. -/
theorem getColumn_any {df : Table} {n : String} {c : List Val}
    (h : getColumn df n = some c) :
    df.any (fun p => p.1 == n) = true := by
  unfold getColumn at h
  rcases Option.map_eq_some'.mp h with ⟨q, hq, _⟩
  exact List.any_eq_true.mpr
    ⟨q, List.mem_of_find?_eq_some hq,
      @List.find?_some _ (fun p => p.1 == n) q df hq⟩

/-- Replacing an existing column keeps every name in place. -/
theorem setColumn_names {df : Table} {n : String} {c : List Val}
    (h : df.any (fun p => p.1 == n) = true) :
    (setColumn df n c).map Prod.fst = df.map Prod.fst := by
  unfold setColumn
  rw [if_pos h, List.map_map]
  apply List.map_congr_left
  intro p hp
  simp only [Function.comp_apply]
  split <;> rfl

/-- A successful step leaves the column names and order unchanged. -/
theorem applySchemaStep_names {df t : Table} {s : Schema}
    (h : applySchemaStep df s = some t) :
    t.map Prod.fst = df.map Prod.fst := by
  rcases applySchemaStep_eq h with ⟨c, c', hg, _, rfl⟩
  exact setColumn_names (getColumn_any hg)

/-- Values produced by a successful `mapM` come from the function. -/
theorem mapM_mem {α β : Type} (f : α → Option β) :
    ∀ (l : List α) (l' : List β), l.mapM f = some l' →
      ∀ v ∈ l', ∃ v0 ∈ l, f v0 = some v := by
  intro l
  induction l with
  | nil =>
    intro l' h v hv
    rw [List.mapM_nil] at h
    injection h with h'
    subst h'
    cases hv
  | cons a as ih =>
    intro l' h v hv
    rw [List.mapM_cons] at h
    rcases Option.bind_eq_some.mp h with ⟨b, hb, h2⟩
    rcases Option.bind_eq_some.mp h2 with ⟨bs, hbs, h3⟩
    injection h3 with h3'
    subst h3'
    rcases List.mem_cons.mp hv with rfl | hv'
    · exact ⟨a, List.mem_cons_self _ _, hb⟩
    · rcases ih bs hbs v hv' with ⟨v0, hv0, hfv0⟩
      exact ⟨v0, List.mem_cons_of_mem _ hv0, hfv0⟩

/-- After a successful step, the processed column holds cast outputs
only. -/
theorem applySchemaStep_self_col {df t : Table} {s : Schema}
    (h : applySchemaStep df s = some t) :
    ∃ c', getColumn t s.name = some c' ∧
      ∀ v ∈ c', ∃ v0, castVal s.dtype v0 = some v := by
  rcases applySchemaStep_eq h with ⟨c, c', hg, hm, rfl⟩
  refine ⟨c', getColumn_setColumn_self df s.name c', ?_⟩
  intro v hv
  rcases mapM_mem _ _ _ hm v hv with ⟨v0, _, hfv0⟩
  exact ⟨v0, hfv0⟩

/-- A successful step does not touch other columns. -/
theorem applySchemaStep_other {df t : Table} {s : Schema} {x : String}
    (h : applySchemaStep df s = some t) (hx : x ≠ s.name) :
    getColumn t x = getColumn df x := by
  rcases applySchemaStep_eq h with ⟨c, c', _, _, rfl⟩
  exact getColumn_setColumn_other df s.name x c' hx

/-- `apply_schema` leaves the column names and order unchanged. -/
theorem apply_schema_names :
    ∀ (schemas : List Schema) {df t : Table},
      apply_schema df schemas = some t →
      t.map Prod.fst = df.map Prod.fst := by
  intro schemas
  induction schemas with
  | nil =>
    intro df t h
    injection h with h'
    subst h'
    rfl
  | cons s ss ih =>
    intro df t h
    unfold apply_schema at h
    rw [List.foldlM_cons] at h
    rcases Option.bind_eq_some.mp h with ⟨d1, hd1, hrest⟩
    exact (ih hrest).trans (applySchemaStep_names hd1)

/-- Columns named by no schema pass through `apply_schema` unchanged. -/
theorem apply_schema_other :
    ∀ (schemas : List Schema) {x : String}
      (_ : ∀ s ∈ schemas, s.name ≠ x) {df t : Table},
      apply_schema df schemas = some t → getColumn t x = getColumn df x := by
  intro schemas
  induction schemas with
  | nil =>
    intro x _ df t h
    injection h with h'
    subst h'
    rfl
  | cons s ss ih =>
    intro x hx df t h
    unfold apply_schema at h
    rw [List.foldlM_cons] at h
    rcases Option.bind_eq_some.mp h with ⟨d1, hd1, hrest⟩
    rw [ih (fun s' hs' => hx s' (List.mem_cons_of_mem _ hs')) hrest]
    exact applySchemaStep_other hd1
      (fun hh => hx s (List.mem_cons_self _ _) hh.symm)

/-- With duplicate-free schema names, every declared column of a
successful `apply_schema` output consists of cast outputs. -/
theorem apply_schema_castout :
    ∀ (schemas : List Schema),
      (schemas.map Schema.name).Nodup →
      ∀ {df t : Table}, apply_schema df schemas = some t →
      ∀ s ∈ schemas, ∃ c, getColumn t s.name = some c ∧
        ∀ v ∈ c, ∃ v0, castVal s.dtype v0 = some v := by
  intro schemas
  induction schemas with
  | nil =>
    intro _ df t _ s hs
    cases hs
  | cons s0 ss ih =>
    intro hnod df t h s hs
    unfold apply_schema at h
    rw [List.foldlM_cons] at h
    rcases Option.bind_eq_some.mp h with ⟨d1, hd1, hrest⟩
    rw [List.map_cons, List.nodup_cons] at hnod
    rcases List.mem_cons.mp hs with rfl | hs'
    · rcases applySchemaStep_self_col hd1 with ⟨c, hc, hco⟩
      refine ⟨c, ?_, hco⟩
      rw [apply_schema_other ss ?_ hrest]
      · exact hc
      · intro s' hs' hname
        exact hnod.1 (hname ▸ List.mem_map_of_mem Schema.name hs')
    · exact ih hnod.2 hrest s hs'

/-- Absent declared columns stay absent under successful steps, so
`apply_schema` signals the KeyError. -/
theorem apply_schema_absent :
    ∀ (schemas : List Schema) {df : Table},
      (∃ s ∈ schemas, ∀ p ∈ df, p.1 ≠ s.name) →
      apply_schema df schemas = none := by
  intro schemas
  induction schemas with
  | nil =>
    intro df h
    rcases h with ⟨s, hs, _⟩
    cases hs
  | cons s0 ss ih =>
    intro df h
    rcases h with ⟨s, hs, habs⟩
    unfold apply_schema
    rw [List.foldlM_cons]
    cases hd1 : applySchemaStep df s0 with
    | none => rfl
    | some d1 =>
      have hbind : ((some d1 : Option Table) >>= fun b =>
          List.foldlM applySchemaStep b ss) =
          List.foldlM applySchemaStep d1 ss := rfl
      rw [hbind]
      rcases List.mem_cons.mp hs with rfl | hs'
      · rcases applySchemaStep_eq hd1 with ⟨c, c', hg, _, _⟩
        unfold getColumn at hg
        rcases Option.map_eq_some'.mp hg with ⟨q, hq, _⟩
        exact absurd (List.find?_some hq)
          (by simpa using habs q (List.mem_of_find?_eq_some hq))
      · apply ih
        refine ⟨s, hs', ?_⟩
        intro p hp
        have hnames := applySchemaStep_names hd1
        have : p.1 ∈ df.map Prod.fst := by
          rw [← hnames]
          exact List.mem_map_of_mem Prod.fst hp
        rcases List.mem_map.mp this with ⟨q, hq, hq1⟩
        exact hq1 ▸ habs q hq

/-- Rewriting a column with its own current content is the identity, for
duplicate-free column names. -/
theorem map_set_eq_self {df : Table} {n : String} {c : List Val}
    (hnod : (df.map Prod.fst).Nodup) (h : getColumn df n = some c) :
    df.map (fun p => if p.1 == n then (p.1, c) else p) = df := by
  induction df with
  | nil => rfl
  | cons q qs ih =>
    rw [List.map_cons, List.nodup_cons] at hnod
    by_cases hq : (q.1 == n) = true
    · have hc : c = q.2 := by
        unfold getColumn at h
        rw [@List.find?_cons_of_pos _ (fun p => p.1 == n) q qs hq] at h
        injection h with h'
        exact h'.symm
      subst hc
      rw [List.map_cons, if_pos hq]
      have hqn : q.1 = n := by simpa using hq
      have htail : qs.map (fun p => if p.1 == n then (p.1, q.2) else p)
          = qs := by
        refine (List.map_congr_left ?_).trans (List.map_id qs)
        intro p hp
        have hpn : ¬ (p.1 == n) = true := by
          intro hcon
          apply hnod.1
          have hpq : p.1 = q.1 := by
            rw [hqn]
            simpa using hcon
          exact hpq ▸ List.mem_map_of_mem Prod.fst hp
        rw [if_neg hpn]
        rfl
      rw [htail]
    · rw [List.map_cons, if_neg hq]
      have h' : getColumn qs n = some c := by
        unfold getColumn at h ⊢
        rw [@List.find?_cons_of_neg _ (fun p => p.1 == n) q qs hq] at h
        exact h
      rw [ih hnod.2 h']

/-- Writing back the column already present is the identity. -/
theorem setColumn_eq_self {df : Table} {n : String} {c : List Val}
    (hnod : (df.map Prod.fst).Nodup) (h : getColumn df n = some c) :
    setColumn df n c = df := by
  unfold setColumn
  rw [if_pos (getColumn_any h)]
  exact map_set_eq_self hnod h

/-- A fold of steps that each fix the table fixes the table. -/
theorem foldlM_const_of_steps (t : Table) :
    ∀ (ss : List Schema), (∀ s ∈ ss, applySchemaStep t s = some t) →
      List.foldlM applySchemaStep t ss = some t := by
  intro ss
  induction ss with
  | nil => intro _; rfl
  | cons s0 ss ih =>
    intro hall
    rw [List.foldlM_cons, hall s0 (List.mem_cons_self _ _)]
    have hbind : ((some t : Option Table) >>= fun b =>
        List.foldlM applySchemaStep b ss) =
        List.foldlM applySchemaStep t ss := rfl
    rw [hbind]
    exact ih (fun s hs => hall s (List.mem_cons_of_mem _ hs))

/-- C7 (confirmed): schema coercion is idempotent.  With well-formed
inputs (duplicate-free column names and schema names, as in every model
config), a second `apply_schema` run returns the first run's output
unchanged: its columns hold no missing values and casting is idempotent
on already-cast cells. -/
theorem apply_schema_idempotent (df : Table) (schemas : List Schema)
    (t : Table) (hdf : (df.map Prod.fst).Nodup)
    (hs : (schemas.map Schema.name).Nodup)
    (h : apply_schema df schemas = some t) :
    apply_schema t schemas = some t := by
  have hnames := apply_schema_names schemas h
  have htnodup : (t.map Prod.fst).Nodup := by
    rw [hnames]
    exact hdf
  have hstep : ∀ s ∈ schemas, applySchemaStep t s = some t := by
    intro s hsmem
    rcases apply_schema_castout schemas hs h s hsmem with ⟨c, hgc, hco⟩
    have hnn : ∀ v ∈ c, v ≠ Val.vNull := by
      intro v hv
      rcases hco v hv with ⟨v0, hv0⟩
      exact castVal_ne_null hv0
    have hfill : c.map (fillNa s.null_value) = c := by
      refine (List.map_congr_left ?_).trans (List.map_id c)
      intro v hv
      exact fillNa_eq_self (hnn v hv)
    have hcast : c.mapM (castVal s.dtype) = some c := by
      apply mapM_castVal_self
      intro v hv
      rcases hco v hv with ⟨v0, hv0⟩
      exact castVal_idem hv0
    have hred : applySchemaStep t s =
        ((c.map (fillNa s.null_value)).mapM (castVal s.dtype)).map
          (setColumn t s.name) := by
      unfold applySchemaStep
      rw [hgc]
    rw [hred, hfill, hcast, Option.map_some', setColumn_eq_self htnodup hgc]
  exact foldlM_const_of_steps t schemas hstep

/-- Witness: applying the schema twice to a two-column table equals
applying it once. -/
theorem apply_schema_idempotent_witness :
    apply_schema [("a", [Val.vInt 0, Val.vInt 2]), ("b", [Val.vStr "x"])]
        [⟨"a", Dtype.int, Val.vInt 0⟩, ⟨"b", Dtype.str, Val.vStr "null"⟩] =
      some [("a", [Val.vInt 0, Val.vInt 2]), ("b", [Val.vStr "x"])] :=
  apply_schema_idempotent
    [("a", [Val.vNull, Val.vInt 2]), ("b", [Val.vStr "x"])] _ _
    (by decide) (by decide) (by decide)

/-- The final column selection of the serving path yields exactly the
declared names in declared order. -/
theorem mapM_select_names (d : Table) :
    ∀ (ss : List Schema) (t : Table),
      ss.mapM (fun s => (getColumn d s.name).map (fun c => (s.name, c))) =
        some t →
      t.map Prod.fst = ss.map Schema.name := by
  intro ss
  induction ss with
  | nil =>
    intro t h
    rw [List.mapM_nil] at h
    injection h with h'
    subst h'
    rfl
  | cons s0 ss ih =>
    intro t h
    rw [List.mapM_cons] at h
    rcases Option.bind_eq_some.mp h with ⟨b, hb, h2⟩
    rcases Option.bind_eq_some.mp h2 with ⟨bs, hbs, h3⟩
    injection h3 with h3'
    subst h3'
    rcases Option.map_eq_some'.mp hb with ⟨c, _, hbc⟩
    subst hbc
    rw [List.map_cons, List.map_cons, ih bs hbs]

/-- C5 as stated is false on the code: training-time `apply_schema` does
not select or reorder columns (the stray column "extra" survives, ahead
of the declared column), its output differs from the serving-time
coercion on the same input, and an absent declared column is a KeyError
rather than being materialized. -/
theorem apply_schema_claim_false :
    (apply_schema [("extra", [Val.vInt 3]), ("a", [Val.vNull])]
        [⟨"a", Dtype.int, Val.vInt 0⟩]).map (fun t => t.map Prod.fst) =
      some ["extra", "a"] ∧
    apply_schema [("extra", [Val.vInt 3]), ("a", [Val.vNull])]
        [⟨"a", Dtype.int, Val.vInt 0⟩] ≠
      predictor_schema_coercion 1
        [("extra", [Val.vInt 3]), ("a", [Val.vNull])]
        [⟨"a", Dtype.int, Val.vInt 0⟩] ∧
    apply_schema ([] : Table) [⟨"a", Dtype.int, Val.vInt 0⟩] = none := by
  exact ⟨by decide, by decide, by decide⟩

/-- C5 (amended): training-time `apply_schema` fills and casts each
declared column in place — it preserves the input's column names and
order (extra columns survive), errors when a declared column is absent,
and leaves the declared columns free of missing values; only the
serving-time coercion of `predictor.predict` materializes absent
declared columns and selects exactly the declared columns in declared
order, so the two paths differ on tables with absent or extra columns. -/
theorem schema_coercion_paths (df : Table) (schemas : List Schema) :
    (∀ t, apply_schema df schemas = some t →
      t.map Prod.fst = df.map Prod.fst) ∧
    ((∃ s ∈ schemas, ∀ p ∈ df, p.1 ≠ s.name) →
      apply_schema df schemas = none) ∧
    (∀ nrows t, predictor_schema_coercion nrows df schemas = some t →
      t.map Prod.fst = schemas.map Schema.name) ∧
    ((schemas.map Schema.name).Nodup →
      ∀ t, apply_schema df schemas = some t →
      ∀ s ∈ schemas, ∃ c, getColumn t s.name = some c ∧ Val.vNull ∉ c) := by
  refine ⟨fun t h => apply_schema_names schemas h,
    apply_schema_absent schemas, ?_, ?_⟩
  · intro nrows t h
    unfold predictor_schema_coercion at h
    rcases Option.bind_eq_some.mp h with ⟨d, _, hmap⟩
    exact mapM_select_names d schemas t hmap
  · intro hnod t h s hsmem
    rcases apply_schema_castout schemas hnod h s hsmem with ⟨c, hgc, hco⟩
    refine ⟨c, hgc, ?_⟩
    intro hmem
    rcases hco _ hmem with ⟨v0, hv0⟩
    exact castVal_ne_null hv0 rfl

/-- Witness: the three amended guarantees evaluated on concrete tables —
names preserved by the training path, KeyError on an empty table, and
exact declared columns from the serving path. -/
theorem schema_coercion_paths_witness :
    (([("extra", [Val.vInt 3]), ("a", [Val.vInt 0])] : Table).map
        Prod.fst =
      ([("extra", [Val.vInt 3]), ("a", [Val.vNull])] : Table).map
        Prod.fst) ∧
    apply_schema ([] : Table) [⟨"a", Dtype.int, Val.vInt 0⟩] = none ∧
    (([("a", [Val.vInt 0])] : Table).map Prod.fst =
      ([⟨"a", Dtype.int, Val.vInt 0⟩] : List Schema).map Schema.name) := by
  refine ⟨?_, ?_, ?_⟩
  · exact (schema_coercion_paths
      [("extra", [Val.vInt 3]), ("a", [Val.vNull])]
      [⟨"a", Dtype.int, Val.vInt 0⟩]).1 _ (by decide)
  · exact (schema_coercion_paths ([] : Table)
      [⟨"a", Dtype.int, Val.vInt 0⟩]).2.1
      ⟨⟨"a", Dtype.int, Val.vInt 0⟩, by decide, by decide⟩
  · exact (schema_coercion_paths
      [("extra", [Val.vInt 3]), ("a", [Val.vNull])]
      [⟨"a", Dtype.int, Val.vInt 0⟩]).2.2.1 1 _ (by decide)

/-- Inverting a successful `Except.bind`. -/
theorem except_bind_ok {ε α β : Type} {x : Except ε α} {f : α → Except ε β}
    {b : β} (h : x.bind f = Except.ok b) :
    ∃ a, x = Except.ok a ∧ f a = Except.ok b := by
  cases x with
  | error e => simp [Except.bind] at h
  | ok a => exact ⟨a, rfl, by simpa [Except.bind] using h⟩

/-- Inverting a successful `Except.map`. -/
theorem except_map_ok {ε α β : Type} {x : Except ε α} {f : α → β} {b : β}
    (h : Except.map f x = Except.ok b) :
    ∃ a, x = Except.ok a ∧ f a = b := by
  cases x with
  | error e => simp [Except.map] at h
  | ok a =>
    refine ⟨a, rfl, ?_⟩
    simpa [Except.map] using h

/-- Destructuring a successful `train_test_split`: the ratio was in
(0, 1), and the splits are the positional prefix and suffix at the
computed train length. -/
theorem train_test_split_eq {α : Type} {l : List α} {ts : ℚ}
    {a b : List α} (h : train_test_split l ts = Except.ok (a, b)) :
    a = l.take (l.length - Nat.ceil (ts * l.length)) ∧
    b = l.drop (l.length - Nat.ceil (ts * l.length)) ∧
    l.length - Nat.ceil (ts * l.length) ≠ 0 ∧ 0 < ts ∧ ts < 1 := by
  simp only [train_test_split] at h
  split at h
  · cases h
  · next hrange =>
    push_neg at hrange
    split at h
    · cases h
    · next hne =>
      injection h with h'
      injection h' with h1 h2
      exact ⟨h1.symm, h2.symm, hne, hrange.1, hrange.2⟩

/-- In a pairwise-ordered list, every element of the prefix relates to
every element of the suffix. -/
theorem pairwise_take_drop {α : Type} {r : α → α → Prop} {l : List α}
    (hs : l.Pairwise r) (k : Nat) :
    ∀ x ∈ l.take k, ∀ y ∈ l.drop k, r x y := by
  have h2 : (l.take k ++ l.drop k).Pairwise r := by
    rw [List.take_append_drop]
    exact hs
  exact (List.pairwise_append.mp h2).2.2

/-- C6 (confirmed): a successful chronological split preserves the row
count, and after the timestamp sort every train row is no later than
every validation row, every validation row no later than every test row,
and every train row no later than every test row. -/
theorem apply_train_test_split_spec {α : Type} (logged_at : α → Int)
    (df : List α) (ts vs : ℚ) (tr va te : List α)
    (h : apply_train_test_split logged_at df ts vs =
      Except.ok (tr, va, te)) :
    tr.length + va.length + te.length = df.length ∧
    (∀ x ∈ tr, ∀ y ∈ va, logged_at x ≤ logged_at y) ∧
    (∀ x ∈ va, ∀ y ∈ te, logged_at x ≤ logged_at y) ∧
    (∀ x ∈ tr, ∀ y ∈ te, logged_at x ≤ logged_at y) := by
  haveI : IsTotal α (fun a b => logged_at a ≤ logged_at b) :=
    ⟨fun a b => le_total (logged_at a) (logged_at b)⟩
  haveI : IsTrans α (fun a b => logged_at a ≤ logged_at b) :=
    ⟨fun _ _ _ hab hbc => le_trans hab hbc⟩
  simp only [apply_train_test_split] at h
  rcases except_bind_ok h with ⟨p, hp, h2⟩
  rcases except_map_ok h2 with ⟨q, hq, h3⟩
  injection h3 with h31 h32
  injection h32 with h32 h33
  subst h31
  subst h32
  subst h33
  rcases train_test_split_eq hp with ⟨hp1, hp2, _, _, _⟩
  rcases train_test_split_eq hq with ⟨hq1, hq2, _, _, _⟩
  have hsorted : (List.insertionSort
      (fun a b => logged_at a ≤ logged_at b) df).Pairwise
      (fun a b => logged_at a ≤ logged_at b) :=
    List.sorted_insertionSort _ df
  have hlen : (List.insertionSort
      (fun a b => logged_at a ≤ logged_at b) df).length = df.length :=
    List.length_insertionSort _ df
  have hmemp : ∀ x ∈ p.1, x ∈ (List.insertionSort
      (fun a b => logged_at a ≤ logged_at b) df).take
        ((List.insertionSort (fun a b => logged_at a ≤ logged_at b)
          df).length -
        Nat.ceil (ts * (List.insertionSort
          (fun a b => logged_at a ≤ logged_at b) df).length)) := by
    intro x hx
    rw [← hp1]
    exact hx
  refine ⟨?_, ?_, ?_, ?_⟩
  · have e1 : q.1.length + q.2.length = p.1.length := by
      rw [hq1, hq2]
      rw [← List.length_append, List.take_append_drop]
    have e2 : p.1.length + p.2.length = df.length := by
      rw [hp1, hp2, ← List.length_append, List.take_append_drop, hlen]
    rw [← e2, ← e1]
  · intro x hx y hy
    have hpair : p.1.Pairwise (fun a b => logged_at a ≤ logged_at b) := by
      rw [hp1]
      have h2 : ((List.insertionSort (fun a b => logged_at a ≤ logged_at b)
          df).take ((List.insertionSort
            (fun a b => logged_at a ≤ logged_at b) df).length -
          Nat.ceil (ts * (List.insertionSort
            (fun a b => logged_at a ≤ logged_at b) df).length)) ++
          (List.insertionSort (fun a b => logged_at a ≤ logged_at b)
            df).drop ((List.insertionSort
            (fun a b => logged_at a ≤ logged_at b) df).length -
          Nat.ceil (ts * (List.insertionSort
            (fun a b => logged_at a ≤ logged_at b) df).length))).Pairwise
          (fun a b => logged_at a ≤ logged_at b) := by
        rw [List.take_append_drop]
        exact hsorted
      exact (List.pairwise_append.mp h2).1
    rw [hq1] at hx
    rw [hq2] at hy
    exact pairwise_take_drop hpair _ x hx y hy
  · intro x hx y hy
    have hx' : x ∈ p.1 := by
      rw [hq2] at hx
      exact List.drop_subset _ _ hx
    rw [hp2] at hy
    exact pairwise_take_drop hsorted _ x (hmemp x hx') y hy
  · intro x hx y hy
    have hx' : x ∈ p.1 := by
      rw [hq1] at hx
      exact List.take_subset _ _ hx
    rw [hp2] at hy
    exact pairwise_take_drop hsorted _ x (hmemp x hx') y hy

unseal Rat.mul in
/-- Witness: the chronological split of ten unsorted rows with ratios
1/5 and 1/10. -/
theorem apply_train_test_split_spec_witness :
    ([0, 1, 2, 3, 4, 5, 6] : List Int).length + ([7] : List Int).length +
        ([8, 9] : List Int).length =
      ([3, 1, 2, 5, 4, 0, 9, 7, 8, 6] : List Int).length ∧
    (∀ x ∈ ([0, 1, 2, 3, 4, 5, 6] : List Int), ∀ y ∈ ([7] : List Int),
      x ≤ y) ∧
    (∀ x ∈ ([7] : List Int), ∀ y ∈ ([8, 9] : List Int), x ≤ y) ∧
    (∀ x ∈ ([0, 1, 2, 3, 4, 5, 6] : List Int), ∀ y ∈ ([8, 9] : List Int),
      x ≤ y) :=
  apply_train_test_split_spec (fun t => t) [3, 1, 2, 5, 4, 0, 9, 7, 8, 6]
    (mkRat 1 5) (mkRat 1 10) [0, 1, 2, 3, 4, 5, 6] [7] [8, 9] (by decide)

/-- C8 (confirmed): whenever `test_size` or `valid_size` lies outside
the open interval (0, 1), the splitter signals an error rather than
returning a partition. -/
theorem apply_train_test_split_invalid {α : Type} (logged_at : α → Int)
    (df : List α) (ts vs : ℚ)
    (h : ¬(0 < ts ∧ ts < 1) ∨ ¬(0 < vs ∧ vs < 1)) :
    ∃ e, apply_train_test_split logged_at df ts vs = Except.error e := by
  have hcond : ∀ r : ℚ, ¬(0 < r ∧ r < 1) → (r ≤ 0 ∨ 1 ≤ r) := by
    intro r hr
    rcases not_and_or.mp hr with h1 | h2
    · exact Or.inl (not_lt.mp h1)
    · exact Or.inr (not_lt.mp h2)
  simp only [apply_train_test_split]
  rcases h with hts | hvs
  · refine ⟨"test_size should be a float in the (0, 1) range", ?_⟩
    have hfirst : train_test_split (List.insertionSort
        (fun a b => logged_at a ≤ logged_at b) df) ts =
        Except.error "test_size should be a float in the (0, 1) range" := by
      simp only [train_test_split]
      rw [if_pos (hcond ts hts)]
    rw [hfirst]
    rfl
  · cases hfirst : train_test_split (List.insertionSort
        (fun a b => logged_at a ≤ logged_at b) df) ts with
    | error e =>
      exact ⟨e, rfl⟩
    | ok p =>
      refine ⟨"test_size should be a float in the (0, 1) range", ?_⟩
      have hsecond : train_test_split p.1 vs =
          Except.error "test_size should be a float in the (0, 1) range" := by
        simp only [train_test_split]
        rw [if_pos (hcond vs hvs)]
      show Except.map (fun q => (q.1, q.2, p.2))
        (train_test_split p.1 vs) = _
      rw [hsecond]
      rfl

/-- Witness: a test ratio of 2 makes the splitter error out. -/
theorem apply_train_test_split_invalid_witness :
    ∃ e, apply_train_test_split (fun t => t) ([1, 2] : List Int) 2
      (mkRat 1 10) = Except.error e :=
  apply_train_test_split_invalid (fun t => t) [1, 2] 2 (mkRat 1 10)
    (Or.inl (by decide))

/-- C9 (confirmed): the splitter removes the test fraction of the whole
input first and then takes the validation fraction of what remains, so
the validation split holds the ceiling of
`valid_size * (n - ceil(test_size * n))` rows — a fraction of the
remainder, not of the whole input. -/
theorem apply_train_test_split_valid_fraction {α : Type}
    (logged_at : α → Int) (df : List α) (ts vs : ℚ) (tr va te : List α)
    (h : apply_train_test_split logged_at df ts vs =
      Except.ok (tr, va, te)) :
    va.length = Nat.ceil (vs *
      ((df.length - Nat.ceil (ts * (df.length : ℚ)) : Nat) : ℚ)) := by
  simp only [apply_train_test_split] at h
  rcases except_bind_ok h with ⟨p, hp, h2⟩
  rcases except_map_ok h2 with ⟨q, hq, h3⟩
  injection h3 with h31 h32
  injection h32 with h32 h33
  rw [← h32]
  rcases train_test_split_eq hp with ⟨hp1, _, _, _, _⟩
  rcases train_test_split_eq hq with ⟨_, hq2, _, _, hvs1⟩
  have hlen : (List.insertionSort
      (fun a b => logged_at a ≤ logged_at b) df).length = df.length :=
    List.length_insertionSort _ df
  have hp1len : p.1.length =
      df.length - Nat.ceil (ts * (df.length : ℚ)) := by
    rw [hp1, List.length_take, hlen]
    exact min_eq_left (Nat.sub_le _ _)
  have hva : q.2.length =
      p.1.length - (p.1.length - Nat.ceil (vs * (p.1.length : ℚ))) := by
    rw [hq2, List.length_drop]
  have hceil_le : Nat.ceil (vs * (p.1.length : ℚ)) ≤ p.1.length := by
    rw [Nat.ceil_le]
    calc vs * (p.1.length : ℚ) ≤ 1 * (p.1.length : ℚ) :=
          mul_le_mul_of_nonneg_right (le_of_lt hvs1) (Nat.cast_nonneg _)
      _ = (p.1.length : ℚ) := one_mul _
  rw [hva, Nat.sub_sub_self hceil_le, hp1len]

unseal Rat.mul in
/-- Witness: on 100 rows with test ratio 1/5 and validation ratio 1/10,
the validation split is 8 rows (a tenth of the remaining 80), not the
10 rows a tenth of the whole input would give. -/
theorem apply_train_test_split_valid_fraction_witness :
    ((List.range 8).map (fun k => Int.ofNat (72 + k))).length =
      Nat.ceil (mkRat 1 10 *
        ((((List.range 100).map Int.ofNat).length -
          Nat.ceil (mkRat 1 5 *
            ((((List.range 100).map Int.ofNat).length : Nat) : ℚ)) :
          Nat) : ℚ)) ∧
    Nat.ceil (mkRat 1 10 *
        ((((List.range 100).map Int.ofNat).length -
          Nat.ceil (mkRat 1 5 *
            ((((List.range 100).map Int.ofNat).length : Nat) : ℚ)) :
          Nat) : ℚ)) ≠
      Nat.ceil (mkRat 1 10 * (100 : ℚ)) :=
  ⟨apply_train_test_split_valid_fraction (fun t => t)
      ((List.range 100).map Int.ofNat) (mkRat 1 5) (mkRat 1 10)
      ((List.range 72).map Int.ofNat)
      ((List.range 8).map (fun k => Int.ofNat (72 + k)))
      ((List.range 20).map (fun k => Int.ofNat (80 + k)))
      (by decide),
    by decide⟩

/-- The calibration score with a nonzero positive count. -/
theorem calibration_score_of_ne {y_true : List ℚ} (y_pred : List ℚ)
    (h : y_true.sum ≠ 0) :
    calibration_score y_true y_pred = some (y_pred.sum / y_true.sum) := by
  unfold calibration_score
  rw [if_neg h]

/-- C2 (confirmed): when the test labels contain positives, the
promotion decision holds exactly when the challenger's log-loss is at
most the baseline's and its calibration is at least as close to 1; and
with no baseline version in the registry the new model registers
unconditionally. -/
theorem promotion_gate_spec (y_pred y_baseline y_true : List ℚ)
    (h : y_true.sum ≠ 0) :
    (is_model_better_than_baseline y_pred y_baseline y_true ↔
      (log_loss y_true y_pred ≤ log_loss y_true y_baseline ∧
        |y_pred.sum / y_true.sum - 1| ≤
          |y_baseline.sum / y_true.sum - 1|)) ∧
    is_update_model_version none y_pred y_baseline y_true := by
  constructor
  · constructor
    · rintro ⟨hl, c, cb, hc, hcb, hle⟩
      refine ⟨hl, ?_⟩
      rw [calibration_score_of_ne y_pred h] at hc
      rw [calibration_score_of_ne y_baseline h] at hcb
      injection hc with hc'
      injection hcb with hcb'
      rw [hc', hcb']
      exact hle
    · rintro ⟨hl, hle⟩
      exact ⟨hl, y_pred.sum / y_true.sum, y_baseline.sum / y_true.sum,
        calibration_score_of_ne y_pred h, calibration_score_of_ne y_baseline h,
        hle⟩
  · trivial

unseal Rat.add in
/-- Witness: the promotion criterion instantiated on a two-row test set
(one positive), challenger predictions (1/2, 1/2) and baseline
predictions (9/10, 1/10). -/
theorem promotion_gate_spec_witness :
    (is_model_better_than_baseline [mkRat 1 2, mkRat 1 2]
        [mkRat 9 10, mkRat 1 10] [1, 0] ↔
      (log_loss [1, 0] [mkRat 1 2, mkRat 1 2] ≤
          log_loss [1, 0] [mkRat 9 10, mkRat 1 10] ∧
        |([mkRat 1 2, mkRat 1 2] : List ℚ).sum /
            ([1, 0] : List ℚ).sum - 1| ≤
          |([mkRat 9 10, mkRat 1 10] : List ℚ).sum /
            ([1, 0] : List ℚ).sum - 1|)) ∧
    is_update_model_version none [mkRat 1 2, mkRat 1 2]
      [mkRat 9 10, mkRat 1 10] [1, 0] :=
  promotion_gate_spec [mkRat 1 2, mkRat 1 2] [mkRat 9 10, mkRat 1 10]
    [1, 0] (by decide)

/-- C10 (confirmed): the calibration score exists exactly when the
labels contain a positive — with a positive label sum it is the ratio of
summed predictions to summed labels, and with a zero label sum the
division by zero yields no score. -/
theorem calibration_score_defined (y_true y_pred : List ℚ) :
    (0 < y_true.sum →
      calibration_score y_true y_pred =
        some (y_pred.sum / y_true.sum)) ∧
    (y_true.sum = 0 → calibration_score y_true y_pred = none) := by
  constructor
  · intro h
    exact calibration_score_of_ne y_pred (ne_of_gt h)
  · intro h
    unfold calibration_score
    rw [if_pos h]

unseal Rat.add Rat.mul Rat.inv in
/-- Witness: the spec's example labels [1,0,1,0] with predictions
(4/5, 1/5, 4/5, 1/5) give the score (4/5 + 1/5 + 4/5 + 1/5) / 2 = 1,
while an all-negative label vector gives no score. -/
theorem calibration_score_defined_witness :
    calibration_score [1, 0, 1, 0]
        [mkRat 4 5, mkRat 1 5, mkRat 4 5, mkRat 1 5] =
      some (([mkRat 4 5, mkRat 1 5, mkRat 4 5, mkRat 1 5] : List ℚ).sum /
        ([1, 0, 1, 0] : List ℚ).sum) ∧
    (([mkRat 4 5, mkRat 1 5, mkRat 4 5, mkRat 1 5] : List ℚ).sum /
        ([1, 0, 1, 0] : List ℚ).sum) = 1 ∧
    calibration_score [0, 0] [mkRat 1 2, mkRat 1 2] = none :=
  ⟨(calibration_score_defined [1, 0, 1, 0]
      [mkRat 4 5, mkRat 1 5, mkRat 4 5, mkRat 1 5]).1 (by decide),
   by decide,
   (calibration_score_defined [0, 0] [mkRat 1 2, mkRat 1 2]).2 (by decide)⟩

end MLOpsPractice
